import Mathlib

/-!
Verification of the Chimera orchestration core specification against the
repository's sources.  Confidence scores and USDC amounts are embedded as
rationals (`ℚ`); the frontend components are embedded as pure functions on
the same data their TSX props carry.  Components of the coordination core
that exist only in the specification (State Store, queues, Judge) are
modelled from the spec's words, as marked in each doc comment.
-/

set_option autoImplicit false

attribute [local semireducible] Rat.add

namespace Chimera

/-- The Judge's three-way routing decision, from spec §4.5:
`validate(result) -> {auto_approve, hold_for_review, reject}`. -/
inductive Decision where
  | auto_approve
  | hold_for_review
  | reject
deriving DecidableEq

/-- Modelled from the spec: the Judge's confidence router (spec §4.5), which
is not implemented under `src/`.  "confidence > 0.90 → auto_approve;
0.70 ≤ confidence ≤ 0.90 → hold_for_review; confidence < 0.70 → reject." -/
def validate (confidence : ℚ) : Decision :=
  if confidence > mkRat 9 10 then Decision.auto_approve
  else if mkRat 7 10 ≤ confidence then Decision.hold_for_review
  else Decision.reject

/-- Rejection reason used by the budget pre-flight check, from the Gherkin
acceptance criterion "the rejection reason should contain
\"Budget Limit Exceeded\"". -/
def budgetRejectReason : String := "Budget Limit Exceeded"

/-- Modelled from the spec: the Judge's handling of `transaction` tasks
(spec §4.5, security spec §3 "Economic Safety"), not implemented under
`src/`.  A pre-flight budget check runs before the confidence check:
`IF (current_daily_spend + tx_amount) > MAX_DAILY_USDC THEN REJECT` with
reason "Budget Limit Exceeded"; otherwise if the amount exceeds the
secondary HITL threshold the task is held for review even at high
confidence; otherwise the confidence router decides. -/
def validateTransaction (daily_spend MAX_DAILY_USDC hitlThreshold amount confidence : ℚ) :
    Decision × String :=
  if daily_spend + amount > MAX_DAILY_USDC then
    (Decision.reject, budgetRejectReason)
  else if amount > hitlThreshold then
    (Decision.hold_for_review, "Transaction amount above HITL threshold")
  else
    (validate confidence, "confidence-routed")

/-- From `ReviewCard.tsx` line 45: `{generated_content || "No text content
generated."}`.  The prop `generated_content` has type `string | null`; the
JavaScript `||` falls through to the placeholder on every falsy value, which
for this type means `null` and the empty string. -/
def renderContent (generated_content : Option String) : String :=
  match generated_content with
  | none => "No text content generated."
  | some s => if s = "" then "No text content generated." else s

/-- From `ReviewCard.tsx` line 17: `const isLowConfidence = confidence_score < 0.8;`. -/
def isLowConfidence (confidence_score : ℚ) : Bool :=
  decide (confidence_score < mkRat 8 10)

/-- From `ReviewCard.tsx` line 30: the card's border class is red exactly when
`isLowConfidence` holds. -/
def cardBorderClass (confidence_score : ℚ) : String :=
  if isLowConfidence confidence_score then "border-2 border-red-500"
  else "border border-gray-200"

/-- From `ReviewCard.tsx` lines 70–74: the warning block is rendered exactly
when `isLowConfidence` holds. -/
def attentionWarning (confidence_score : ℚ) : Option String :=
  if isLowConfidence confidence_score then
    some "High Attention Needed: Confidence below safety threshold."
  else none

/-- From `ReviewCard.tsx` lines 11–15: the badge colour classes chosen from
the confidence score. -/
def getBadgeColor (score : ℚ) : String :=
  if score > mkRat 9 10 then "bg-green-100 text-green-800"
  else if score > mkRat 7 10 then "bg-yellow-100 text-yellow-800"
  else "bg-red-100 text-red-800"

/-- C1: Confidence routing is deterministic and boundary-correct: confidence
strictly above 0.90 routes to auto_approve, confidence in the closed interval
[0.70, 0.90] routes to hold_for_review, confidence strictly below 0.70 routes
to reject; in particular exactly 0.90 and exactly 0.70 both route to
hold_for_review. -/
theorem judge_confidence_routing (c : ℚ) :
    (validate c = Decision.auto_approve ↔ mkRat 9 10 < c) ∧
    (validate c = Decision.hold_for_review ↔ mkRat 7 10 ≤ c ∧ c ≤ mkRat 9 10) ∧
    (validate c = Decision.reject ↔ c < mkRat 7 10) ∧
    validate (mkRat 9 10) = Decision.hold_for_review ∧
    validate (mkRat 7 10) = Decision.hold_for_review := by
  have h79 : (mkRat 7 10 : ℚ) ≤ mkRat 9 10 := by decide
  refine ⟨?_, ?_, ?_, by decide, by decide⟩
  · unfold validate
    split_ifs with h1 h2 <;> simp [h1]
  · unfold validate
    split_ifs with h1 h2
    · simp only [false_iff, iff_false, reduceCtorEq]
      rintro ⟨ha, hb⟩
      linarith
    · simp [h2, le_of_not_lt h1]
    · simp [h2]
  · unfold validate
    split_ifs with h1 h2
    · simp only [false_iff, iff_false, reduceCtorEq]
      intro hx
      linarith
    · simp only [false_iff, iff_false, reduceCtorEq]
      intro hx
      linarith
    · push_neg at h2
      simp [h2]

/-- C2: for every transaction task, the pre-flight budget check runs before
the confidence check: whenever daily_spend + amount > MAX_DAILY_USDC the
Judge rejects immediately, for every confidence score, with the reason
"Budget Limit Exceeded". -/
theorem judge_budget_preflight
    (daily_spend MAX_DAILY_USDC hitlThreshold amount confidence : ℚ)
    (h : daily_spend + amount > MAX_DAILY_USDC) :
    validateTransaction daily_spend MAX_DAILY_USDC hitlThreshold amount confidence =
      (Decision.reject, budgetRejectReason) := by
  unfold validateTransaction
  rw [if_pos h]

/-- C2 witness: the spec's scenario daily_spend = 45.0, MAX_DAILY_USDC = 50.0,
amount = 10.0 (here at confidence 0.99) is rejected with the budget reason. -/
theorem judge_budget_preflight_witness :
    mkRat 45 1 + mkRat 10 1 > mkRat 50 1 ∧
    validateTransaction (mkRat 45 1) (mkRat 50 1) (mkRat 10 1) (mkRat 10 1) (mkRat 99 100) =
      (Decision.reject, budgetRejectReason) :=
  ⟨by decide, judge_budget_preflight _ _ _ _ _ (by decide)⟩

/-- C9 counterexample: the empty string is non-null content, yet `ReviewCard`
renders the placeholder, which is not that content verbatim. -/
theorem reviewcard_content_counterexample :
    renderContent (some "") = "No text content generated." ∧
    "No text content generated." ≠ "" := by
  exact ⟨by decide, by decide⟩

/-- C9 (amended): null content and empty-string content render the
placeholder "No text content generated."; every non-empty content string is
rendered verbatim. -/
theorem reviewcard_content_total (s : String) (hs : s ≠ "") :
    renderContent none = "No text content generated." ∧
    renderContent (some "") = "No text content generated." ∧
    renderContent (some s) = s := by
  refine ⟨rfl, rfl, ?_⟩
  simp only [renderContent]
  rw [if_neg hs]

/-- C9 witness: a concrete non-empty content string is rendered verbatim. -/
theorem reviewcard_content_total_witness :
    ("post draft" : String) ≠ "" ∧ renderContent (some "post draft") = "post draft" :=
  ⟨by decide, (reviewcard_content_total "post draft" (by decide)).2.2⟩

/-- C10: the review card's low-confidence attention marking (red border and
warning) is applied if and only if confidence_score < 0.8 — a fixed 0.8
threshold, so a score of exactly 0.8 is not flagged. -/
theorem reviewcard_low_confidence_threshold (s : ℚ) :
    (isLowConfidence s = true ↔ s < mkRat 8 10) ∧
    (cardBorderClass s = "border-2 border-red-500" ↔ s < mkRat 8 10) ∧
    (attentionWarning s =
        some "High Attention Needed: Confidence below safety threshold." ↔
      s < mkRat 8 10) ∧
    isLowConfidence (mkRat 8 10) = false := by
  refine ⟨?_, ?_, ?_, by decide⟩
  · simp [isLowConfidence]
  · by_cases h : s < mkRat 8 10 <;>
      simp [cardBorderClass, isLowConfidence, h]
  · by_cases h : s < mkRat 8 10 <;>
      simp [attentionWarning, isLowConfidence, h]

/-- Modelled from the spec: the versioned State Store (spec §4.1), which is
not implemented under `src/`.  It holds the shared state together with a
monotonically increasing version integer. -/
structure Store (σ : Type) where
  state : σ
  version : ℕ
deriving DecidableEq

/-- Outcome of a `commit` call: the new version on success, or
`VersionConflict` (spec §4.1, §7). -/
inductive CommitOutcome where
  | ok (newVersion : ℕ)
  | versionConflict
deriving DecidableEq

/-- Modelled from the spec: `commit(baseVersion, mutation) -> (newVersion) |
VersionConflict` (spec §4.1).  "A commit succeeds only if `baseVersion`
equals the store's current version; on success the mutation is applied
atomically and the version increments by one.  On mismatch the caller
receives `VersionConflict`." -/
def commit {σ : Type} (st : Store σ) (baseVersion : ℕ) (mutation : σ → σ) :
    CommitOutcome × Store σ :=
  if baseVersion = st.version then
    (CommitOutcome.ok (st.version + 1), ⟨mutation st.state, st.version + 1⟩)
  else
    (CommitOutcome.versionConflict, st)

/-- One commit attempt: a base version paired with a mutation. -/
def applyAttempt {σ : Type} (st : Store σ) (a : ℕ × (σ → σ)) : Store σ :=
  (commit st a.1 a.2).2

/-- Run a sequence of commit attempts against one store. -/
def runAttempts {σ : Type} (st : Store σ) (attempts : List (ℕ × (σ → σ))) : Store σ :=
  attempts.foldl applyAttempt st

/-- The base versions of the attempts in a sequence whose `commit` succeeded. -/
def successBases {σ : Type} (st : Store σ) : List (ℕ × (σ → σ)) → List ℕ
  | [] => []
  | a :: rest =>
    match commit st a.1 a.2 with
    | (CommitOutcome.ok _, st2) => a.1 :: successBases st2 rest
    | (CommitOutcome.versionConflict, st2) => successBases st2 rest

theorem successBases_ge {σ : Type} (attempts : List (ℕ × (σ → σ))) :
    ∀ (st : Store σ) (b : ℕ), b ∈ successBases st attempts → st.version ≤ b := by
  induction attempts with
  | nil => intro st b hb; simp [successBases] at hb
  | cons a rest ih =>
    intro st b hb
    by_cases h : a.1 = st.version
    · simp only [successBases, commit, if_pos h] at hb
      rcases List.mem_cons.mp hb with h1 | h1
      · omega
      · have := ih ⟨a.2 st.state, st.version + 1⟩ b h1
        simp at this
        omega
    · simp only [successBases, commit, if_neg h] at hb
      exact ih st b hb

theorem successBases_nodup {σ : Type} (attempts : List (ℕ × (σ → σ))) :
    ∀ st : Store σ, (successBases st attempts).Nodup := by
  induction attempts with
  | nil => intro st; simp [successBases]
  | cons a rest ih =>
    intro st
    by_cases h : a.1 = st.version
    · simp only [successBases, commit, if_pos h]
      refine List.nodup_cons.mpr ⟨?_, ih _⟩
      intro hmem
      have := successBases_ge rest ⟨a.2 st.state, st.version + 1⟩ a.1 hmem
      simp at this
      omega
    · simp only [successBases, commit, if_neg h]
      exact ih st

/-- C3: `commit(baseVersion, mutation)` succeeds if and only if the base
version equals the store's current version; on success the mutation is
applied atomically and the version rises by exactly one; on mismatch the
caller gets `VersionConflict` and the store is unchanged; and across any
sequence of commit attempts against one store, no two successful commits
apply against the same base version. -/
theorem occ_commit_protocol (σ : Type) (st : Store σ) (b : ℕ) (m : σ → σ)
    (attempts : List (ℕ × (σ → σ))) :
    ((∃ v, (commit st b m).1 = CommitOutcome.ok v) ↔ b = st.version) ∧
    ((commit st b m).1 = CommitOutcome.versionConflict ↔ b ≠ st.version) ∧
    ((commit st b m).2 =
      if b = st.version then Store.mk (m st.state) (st.version + 1) else st) ∧
    (successBases st attempts).Nodup := by
  refine ⟨?_, ?_, ?_, successBases_nodup attempts st⟩ <;>
    · unfold commit
      by_cases h : b = st.version <;> simp [h]

/-- Modelled from the spec: a committed transaction sequence as seen by the
Budget Ledger (spec §3, §4.5, §8).  A transaction's amount is added to
`daily_spend` only when the Judge's pre-flight budget check passes; a
budget-rejected transaction is never committed and leaves the spend
unchanged. -/
def commitTransaction (MAX_DAILY_USDC hitlThreshold daily_spend : ℚ)
    (tx : ℚ × ℚ) : ℚ :=
  if (validateTransaction daily_spend MAX_DAILY_USDC hitlThreshold tx.1 tx.2).1 =
      Decision.reject then
    daily_spend
  else
    daily_spend + tx.1

/-- Fold a sequence of proposed transactions (amount, confidence) through the
Judge's budget gate, accumulating `daily_spend`. -/
def runTransactions (MAX_DAILY_USDC hitlThreshold daily_spend : ℚ)
    (txs : List (ℚ × ℚ)) : ℚ :=
  txs.foldl (commitTransaction MAX_DAILY_USDC hitlThreshold) daily_spend

theorem commitTransaction_le (MAX_DAILY_USDC hitlThreshold daily_spend : ℚ)
    (tx : ℚ × ℚ) (h : daily_spend ≤ MAX_DAILY_USDC) :
    commitTransaction MAX_DAILY_USDC hitlThreshold daily_spend tx ≤ MAX_DAILY_USDC := by
  unfold commitTransaction
  split_ifs with hd
  · exact h
  · by_cases hb : daily_spend + tx.1 > MAX_DAILY_USDC
    · exfalso
      apply hd
      unfold validateTransaction
      rw [if_pos hb]
    · push_neg at hb
      exact hb

/-- C4: for every sequence of committed transactions, `daily_spend` never
exceeds `MAX_DAILY_USDC` after any commit: starting from any spend within
budget, every state reached by committing transactions through the Judge's
budget gate stays within budget. -/
theorem budget_invariant (MAX_DAILY_USDC hitlThreshold daily_spend : ℚ)
    (txs : List (ℚ × ℚ)) (h : daily_spend ≤ MAX_DAILY_USDC) :
    runTransactions MAX_DAILY_USDC hitlThreshold daily_spend txs ≤ MAX_DAILY_USDC := by
  induction txs generalizing daily_spend with
  | nil => simpa [runTransactions] using h
  | cons tx rest ih =>
    have h1 := commitTransaction_le MAX_DAILY_USDC hitlThreshold daily_spend tx h
    simpa [runTransactions, List.foldl_cons] using
      ih (commitTransaction MAX_DAILY_USDC hitlThreshold daily_spend tx) h1

/-- C4 witness: spending 10, then an over-budget 45 (silently rejected),
then 3 from a 50-USDC daily budget stays within the budget. -/
theorem budget_invariant_witness :
    (mkRat 0 1 : ℚ) ≤ mkRat 50 1 ∧
    runTransactions (mkRat 50 1) (mkRat 100 1) (mkRat 0 1)
        [(mkRat 10 1, mkRat 95 100), (mkRat 45 1, mkRat 95 100), (mkRat 3 1, mkRat 8 10)] ≤
      mkRat 50 1 :=
  ⟨by decide, budget_invariant _ _ _ _ (by decide)⟩

/-- Task status, from spec §3: status ∈ {pending, leased, processing,
review, complete, rejected, failed}. -/
inductive TaskStatus where
  | pending
  | leased
  | processing
  | review
  | complete
  | rejected
  | failed
deriving DecidableEq

/-- A queued task, from spec §3: identity, priority tier, submission time
and dependency set (other task ids). -/
structure Task where
  id : ℕ
  priority : ℕ
  submitted : ℕ
  deps : List ℕ
deriving DecidableEq

/-- All of a task's dependencies show `complete` in the given snapshot. -/
def depsComplete (statusOf : ℕ → TaskStatus) (t : Task) : Bool :=
  t.deps.all fun d => decide (statusOf d = TaskStatus.complete)

/-- Ordering from spec §4.2: priority tier first, submission time second. -/
def leaseBefore (a b : Task) : Bool :=
  decide (a.priority < b.priority) ||
    (decide (a.priority = b.priority) && decide (a.submitted ≤ b.submitted))

/-- Pick the first-to-lease task among a non-empty candidate list. -/
def pickBest : Task → List Task → Task
  | t, [] => t
  | t, u :: rest => if leaseBefore t u then pickBest t rest else pickBest u rest

/-- Modelled from the spec: Task Queue `lease()` (spec §4.2), not implemented
under `src/`.  "dependency-gated tasks are withheld from `lease()` until all
dependency task ids show `complete` in the current snapshot"; among the
eligible tasks the queue orders by priority tier first, submission time
second. -/
def lease (queue : List Task) (statusOf : ℕ → TaskStatus) : Option Task :=
  match queue.filter (depsComplete statusOf) with
  | [] => none
  | t :: rest => some (pickBest t rest)

theorem pickBest_mem (t : Task) (l : List Task) : pickBest t l ∈ t :: l := by
  induction l generalizing t with
  | nil => simp [pickBest]
  | cons u rest ih =>
    unfold pickBest
    split_ifs
    · rcases List.mem_cons.mp (ih t) with h | h
      · simp [h]
      · simp [List.mem_cons.mpr (Or.inr (List.mem_cons.mpr (Or.inr h)))]
    · rcases List.mem_cons.mp (ih u) with h | h
      · simp [h]
      · simp [List.mem_cons.mpr (Or.inr (List.mem_cons.mpr (Or.inr h)))]

/-- C5: `lease()` never returns a task that has a dependency whose status is
not `complete` in the snapshot the leasing decision is made against. -/
theorem lease_respects_dependencies (queue : List Task)
    (statusOf : ℕ → TaskStatus) (t : Task)
    (h : lease queue statusOf = some t) :
    ∀ d ∈ t.deps, statusOf d = TaskStatus.complete := by
  unfold lease at h
  intro d hd
  rcases he : queue.filter (depsComplete statusOf) with _ | ⟨t0, rest⟩
  · rw [he] at h
    exact absurd h (by simp)
  · rw [he] at h
    have hmem : t ∈ t0 :: rest := by
      have := pickBest_mem t0 rest
      simpa [Option.some_inj.mp h] using this
    have hfil : t ∈ queue.filter (depsComplete statusOf) := he ▸ hmem
    have hdc : depsComplete statusOf t = true := (List.mem_filter.mp hfil).2
    have := List.all_eq_true.mp hdc d hd
    exact of_decide_eq_true this

/-- C5 witness: with task 1 gated on the incomplete task 0 and task 2
dependency-free, `lease` returns task 2, whose (empty) dependency set is all
complete. -/
theorem lease_respects_dependencies_witness :
    lease [Task.mk 1 0 0 [0], Task.mk 2 5 5 []]
        (fun d => if d = 0 then TaskStatus.pending else TaskStatus.complete) =
      some (Task.mk 2 5 5 []) ∧
    ∀ d ∈ (Task.mk 2 5 5 []).deps,
      (fun d => if d = 0 then TaskStatus.pending else TaskStatus.complete) d =
        TaskStatus.complete :=
  ⟨by decide,
    lease_respects_dependencies [Task.mk 1 0 0 [0], Task.mk 2 5 5 []]
      (fun d => if d = 0 then TaskStatus.pending else TaskStatus.complete)
      (Task.mk 2 5 5 []) (by decide)⟩

/-- A lease grant: a time-bounded exclusive claim on a queued task by one
worker (spec glossary), recorded with its absolute expiry instant. -/
structure LeaseGrant where
  taskId : ℕ
  worker : ℕ
  expiry : ℕ
deriving DecidableEq

/-- Modelled from the spec: the Task Queue's delivery state (spec §4.2, §5),
not implemented under `src/`.  `now` is the logical clock; `pending` the
queued task ids not yet acked; `leases` the grants issued so far; `acked`
the acknowledged task ids; `paused` the emergency-stop flag committed in the
State Store. -/
structure QState where
  now : ℕ
  pending : List ℕ
  leases : List LeaseGrant
  acked : List ℕ
  paused : Bool
deriving DecidableEq

/-- The live (unexpired) grants currently held on a task. -/
def liveOn (q : QState) (tid : ℕ) : List LeaseGrant :=
  q.leases.filter fun l => decide (l.taskId = tid) && decide (q.now < l.expiry)

/-- A task may be delivered by `lease()` exactly when it is still queued, not
acked, carries no live grant (so an expired, un-acked grant no longer blocks
it) and the queue is not paused. -/
def availableForLease (q : QState) (tid : ℕ) : Bool :=
  q.pending.contains tid && !(q.acked.contains tid) &&
    (liveOn q tid).isEmpty && !q.paused

/-- The task `lease()` would deliver next: the first available queued task. -/
def leaseNext (q : QState) : Option ℕ :=
  q.pending.find? (availableForLease q)

/-- All in-flight grants have run out: the queue has drained. -/
def drained (q : QState) : Bool :=
  q.leases.all fun l => decide (l.expiry ≤ q.now)

/-- The fleet snapshot exposed to operator queries (spec §6):
`getFleetSnapshot() -> {queueDepth, paused, ...}`. -/
structure FleetSnapshot where
  queueDepth : ℕ
  paused : Bool
deriving DecidableEq

/-- Build the fleet snapshot from the queue state. -/
def getFleetSnapshot (q : QState) : FleetSnapshot :=
  ⟨q.pending.length, q.paused⟩

/-- Modelled from the spec: the Task Queue's observable transitions
(spec §4.2, §4.6, §5).  `tick` advances logical time; `grant` delivers the
next available task under a fresh TTL-bounded lease; `ack` acknowledges a
live lease and retires the task; `nack` returns the task to the queue
immediately by withdrawing the grant; `stop` and `resume` are the
Escalation Gate's `emergencyStop()` / `resume()` commits; `flushQ` empties
the queue once paused and drained. -/
inductive QStep : QState → QState → Prop where
  | tick (q : QState) :
      QStep q { q with now := q.now + 1 }
  | grant (q : QState) (tid w ttl : ℕ) (hl : leaseNext q = some tid) (ht : 0 < ttl) :
      QStep q { q with leases := ⟨tid, w, q.now + ttl⟩ :: q.leases }
  | ack (q : QState) (l : LeaseGrant) (hm : l ∈ q.leases) (hlive : q.now < l.expiry) :
      QStep q { q with acked := l.taskId :: q.acked,
                       pending := q.pending.filter fun t => !(t == l.taskId) }
  | nack (q : QState) (l : LeaseGrant) (hm : l ∈ q.leases) :
      QStep q { q with leases := q.leases.erase l }
  | stop (q : QState) :
      QStep q { q with paused := true }
  | resume (q : QState) :
      QStep q { q with paused := false }
  | flushQ (q : QState) (hp : q.paused = true) (hd : drained q = true) :
      QStep q { q with pending := [] }

/-- The queue state at campaign start: clock zero, the initial task list,
no grants, nothing acked, not paused. -/
def initQ (tasks : List ℕ) : QState :=
  ⟨0, tasks, [], [], false⟩

/-- States the Task Queue can reach from campaign start. -/
inductive QReach (tasks : List ℕ) : QState → Prop where
  | init : QReach tasks (initQ tasks)
  | step {q q' : QState} : QReach tasks q → QStep q q' → QReach tasks q'

theorem liveOn_cons (q : QState) (g : LeaseGrant) (tid : ℕ) :
    liveOn { q with leases := g :: q.leases } tid =
      if decide (g.taskId = tid) && decide (q.now < g.expiry) then g :: liveOn q tid
      else liveOn q tid := by
  simp [liveOn, List.filter_cons]

theorem liveOn_empty_of_available (q : QState) (tid : ℕ)
    (h : availableForLease q tid = true) : liveOn q tid = [] := by
  simp only [availableForLease, Bool.and_eq_true] at h
  exact List.isEmpty_iff.mp h.1.2

theorem liveOn_length_le_one (tasks : List ℕ) (q : QState) (hq : QReach tasks q) :
    ∀ tid, (liveOn q tid).length ≤ 1 := by
  induction hq with
  | init => intro tid; simp [liveOn, initQ]
  | @step q1 q2 _ hs ih =>
    intro tid
    cases hs with
    | tick =>
      have hsub : List.Sublist (liveOn { q1 with now := q1.now + 1 } tid) (liveOn q1 tid) := by
        apply List.monotone_filter_right
        intro l hl
        simp only [Bool.and_eq_true, decide_eq_true_eq] at hl ⊢
        exact ⟨hl.1, by omega⟩
      exact le_trans hsub.length_le (ih tid)
    | grant tid0 w ttl hl ht =>
      have hav : availableForLease q1 tid0 = true := List.find?_some hl
      have hemp : liveOn q1 tid0 = [] := liveOn_empty_of_available q1 tid0 hav
      rw [liveOn_cons]
      split_ifs with hcond
      · simp only [Bool.and_eq_true, decide_eq_true_eq] at hcond
        rw [← hcond.1, hemp]
        simp
      · exact ih tid
    | ack l hm hlive => exact ih tid
    | nack l hm =>
      have hsub : List.Sublist (liveOn { q1 with leases := q1.leases.erase l } tid)
          (liveOn q1 tid) :=
        (List.erase_sublist l q1.leases).filter _
      exact le_trans hsub.length_le (ih tid)
    | stop => exact ih tid
    | resume => exact ih tid
    | flushQ hp hd => exact ih tid

theorem length_le_one_unique {α : Type} {l : List α} (h : l.length ≤ 1)
    {a b : α} (ha : a ∈ l) (hb : b ∈ l) : a = b := by
  match l with
  | [] => cases ha
  | [x] =>
    simp only [List.mem_singleton] at ha hb
    rw [ha, hb]
  | x :: y :: rest => simp at h

/-- C6: in every state the Task Queue can reach, a task is never held under
live leases by two different workers: the live grants on each task number at
most one, so any two live grants on the same task coincide; a task with a
fresh live grant is not available to `lease()` again, and once every grant on
a still-queued, un-acked task has expired the task is available to `lease()`
again. -/
theorem lease_ttl_exclusive (tasks : List ℕ) (q : QState) (hq : QReach tasks q) :
    (∀ tid, (liveOn q tid).length ≤ 1) ∧
    (∀ l1 l2, l1 ∈ q.leases → l2 ∈ q.leases → l1.taskId = l2.taskId →
        q.now < l1.expiry → q.now < l2.expiry → l1 = l2) ∧
    (∀ tid w ttl, 0 < ttl →
        availableForLease { q with leases := ⟨tid, w, q.now + ttl⟩ :: q.leases } tid =
          false) ∧
    (∀ tid, q.pending.contains tid = true → q.acked.contains tid = false →
        q.paused = false → (∀ l ∈ q.leases, l.taskId = tid → l.expiry ≤ q.now) →
        availableForLease q tid = true) := by
  refine ⟨liveOn_length_le_one tasks q hq, ?_, ?_, ?_⟩
  · intro l1 l2 h1 h2 htid he1 he2
    have hm1 : l1 ∈ liveOn q l1.taskId := by
      simp [liveOn, List.mem_filter, h1, he1]
    have hm2 : l2 ∈ liveOn q l1.taskId := by
      simp [liveOn, List.mem_filter, h2, htid.symm, he2]
    exact length_le_one_unique (liveOn_length_le_one tasks q hq l1.taskId) hm1 hm2
  · intro tid w ttl ht
    have : liveOn { q with leases := ⟨tid, w, q.now + ttl⟩ :: q.leases } tid =
        ⟨tid, w, q.now + ttl⟩ :: liveOn q tid := by
      rw [liveOn_cons]
      simp [Nat.lt_add_of_pos_right ht]
    simp [availableForLease, this]
  · intro tid hpend hack hpause hexp
    have hemp : liveOn q tid = [] := by
      simp only [liveOn]
      rw [List.filter_eq_nil_iff]
      intro l hl
      simp only [Bool.and_eq_true, decide_eq_true_eq, not_and]
      intro htid
      have := hexp l hl htid
      omega
    have hpend2 : tid ∈ q.pending := by simpa using hpend
    have hack2 : tid ∉ q.acked := by simpa using hack
    simp [availableForLease, hpend2, hack2, hpause, hemp]

/-- C6 witness: from initial task list [5], granting task 5 to worker 1 with
TTL 2 and letting the TTL run out (two clock ticks, no ack) reaches a state
where the live-lease bound holds and task 5 is available to `lease()` again. -/
theorem lease_ttl_exclusive_witness :
    (liveOn (QState.mk 2 [5] [LeaseGrant.mk 5 1 2] [] false) 5).length ≤ 1 ∧
    availableForLease (QState.mk 2 [5] [LeaseGrant.mk 5 1 2] [] false) 5 = true := by
  have h := lease_ttl_exclusive [5] (QState.mk 2 [5] [LeaseGrant.mk 5 1 2] [] false)
    (QReach.step (QReach.step (QReach.step QReach.init
      (QStep.grant (initQ [5]) 5 1 2 (by decide) (by decide)))
      (QStep.tick _)) (QStep.tick _))
  exact ⟨h.1 5, h.2.2.2 5 (by decide) (by decide) (by decide) (by decide)⟩

/-- C7: once `emergencyStop()` has committed `paused = true`, the Task Queue
refuses every new `lease()` call; every transition other than an explicit
`resume()` leaves `paused` set, so the state is visible as `paused: true` in
every fleet snapshot until resumed; in-flight live leases may still be
acknowledged (drain, not kill); and once drained the queue may flush its
pending list to empty. -/
theorem emergency_stop_paused (q q' : QState) (hp : q.paused = true) :
    leaseNext q = none ∧
    (∀ tid, availableForLease q tid = false) ∧
    (QStep q q' → q'.paused = true ∨ q' = { q with paused := false }) ∧
    (drained q = true → QStep q { q with pending := [] }) ∧
    (∀ l, l ∈ q.leases → q.now < l.expiry →
        QStep q { q with acked := l.taskId :: q.acked,
                         pending := q.pending.filter fun t => !(t == l.taskId) }) ∧
    (getFleetSnapshot q).paused = true := by
  have hav : ∀ tid, availableForLease q tid = false := by
    intro tid
    simp [availableForLease, hp]
  refine ⟨?_, hav, ?_, ?_, ?_, ?_⟩
  · simp only [leaseNext]
    rw [List.find?_eq_none]
    intro tid _
    simp [hav tid]
  · intro hs
    cases hs <;> simp [hp]
  · intro hd
    exact QStep.flushQ q hp hd
  · intro l hm hlive
    exact QStep.ack q l hm hlive
  · simpa [getFleetSnapshot] using hp

/-- C7 witness: a concrete paused queue state with a queued task refuses
`lease()` and reports `paused: true` in its fleet snapshot. -/
theorem emergency_stop_paused_witness :
    leaseNext (QState.mk 0 [3] [] [] true) = none ∧
    (getFleetSnapshot (QState.mk 0 [3] [] [] true)).paused = true := by
  have h := emergency_stop_paused (QState.mk 0 [3] [] [] true)
    (QState.mk 0 [3] [] [] true) (by decide)
  exact ⟨h.1, h.2.2.2.2.2⟩

/-- From `FleetStatus.tsx` lines 3–13: the agent role is the closed union
`'Planner' | 'Worker' | 'Judge'`. -/
inductive Role where
  | Planner
  | Worker
  | Judge
deriving DecidableEq

/-- From `FleetStatus.tsx`: liveness status `'active' | 'idle' | 'offline'`. -/
inductive Liveness where
  | active
  | idle
  | offline
deriving DecidableEq

/-- From `FleetStatus.tsx` lines 3–13: the `AgentStatus` record. -/
structure AgentStatus where
  id : String
  name : String
  role : Role
  info : String
  status : Liveness
  wallet_eth : ℚ
  wallet_usdc : ℚ
deriving DecidableEq

/-- The string carried by each role tag in the TSX union. -/
def roleName : Role → String
  | Role.Planner => "Planner"
  | Role.Worker => "Worker"
  | Role.Judge => "Judge"

/-- From `FleetStatus.tsx` lines 60–67: `getRoleBadge` switches on the role
string, with a grey default branch for anything else. -/
def getRoleBadge (role : String) : String :=
  if role = "Planner" then "bg-purple-100 text-purple-800"
  else if role = "Worker" then "bg-blue-100 text-blue-800"
  else if role = "Judge" then "bg-yellow-100 text-yellow-800"
  else "bg-gray-100 text-gray-800"

/-- From `FleetStatus.tsx` lines 16–49: the mock fleet rendered by the
dashboard. -/
def mockAgents : List AgentStatus :=
  [⟨"agent-planner-01", "Strategist Prime", Role.Planner,
      "Analyzing Summer 2026 trends", Liveness.active, mkRat 5 100, mkRat 120 1⟩,
   ⟨"agent-worker-01", "Content Gen Alpha", Role.Worker,
      "Generating image for ChimeraDrop", Liveness.active, mkRat 1 100, mkRat 1550 100⟩,
   ⟨"agent-worker-02", "Social Interaction Bot", Role.Worker,
      "Replying to comments on Post 882", Liveness.idle, mkRat 1 100, mkRat 45 1⟩,
   ⟨"agent-judge-cfo", "The CFO", Role.Judge,
      "Monitoring transaction thresholds", Liveness.active, mkRat 10 100, mkRat 5000 1⟩]

/-- C8: the agent role is a closed tagged variant over exactly
{Planner, Worker, Judge}: every `Role` value is one of the three, every
`AgentStatus` (in particular every mock fleet entry) carries one of the
three, and `getRoleBadge` never reaches its grey default branch on a typed
role. -/
theorem agent_roles_closed :
    (∀ r : Role, r = Role.Planner ∨ r = Role.Worker ∨ r = Role.Judge) ∧
    (∀ a : AgentStatus,
      a.role = Role.Planner ∨ a.role = Role.Worker ∨ a.role = Role.Judge) ∧
    (∀ r : Role, getRoleBadge (roleName r) ≠ "bg-gray-100 text-gray-800") ∧
    (mockAgents.all fun a =>
      (a.role == Role.Planner) || (a.role == Role.Worker) || (a.role == Role.Judge)) =
        true := by
  have hclosed : ∀ r : Role, r = Role.Planner ∨ r = Role.Worker ∨ r = Role.Judge := by
    intro r
    cases r <;> simp
  refine ⟨hclosed, fun a => hclosed a.role, ?_, ?_⟩
  · intro r
    cases r <;> decide
  · apply List.all_eq_true.mpr
    intro a ha
    rcases hclosed a.role with h | h | h <;> simp [h]

end Chimera
